import Mathlib

/-!
Verification of the link-reconciliation core of the efx-skills repository.

The Go source is shallowly embedded as follows.

Filesystem model: a provider skills directory is a `PDir` — a creation
mode together with a finite list of named entries (`DirEntries`).  An
entry kind records what the reconciler can observe about it: a symbolic
link (with its target stored already resolved against the provider
directory, which is what `filepath.Rel`-created links resolve to), a
regular file, an empty directory, or a non-empty directory.  A provider
directory that does not exist is `none : Option PDir`.

Operation models follow the documented semantics of the Go standard
library calls the source makes:
  * `os.Symlink` fails if an entry of that name already exists;
  * `os.Remove` removes a file, symlink or empty directory and fails on
    a non-empty directory or a missing name;
  * `os.MkdirAll` succeeds and is a no-op on an existing directory;
  * `os.ReadDir` returns the entries of a directory, or an error
    (`ReadDirErr`) that either is or is not a non-existence error.
The source discards the error results of `os.Symlink` and `os.Remove`
(`applySkillChanges` in internal/tui/app.go), so the embedding applies
the successful effect when the call succeeds and leaves the state
unchanged when it fails.
-/

namespace EfxSkills

/-- Observable kind of one entry of a provider directory.  A symlink
stores its target resolved against the provider directory. -/
inductive EntryKind where
  | symlink (target : String)
  | file
  | emptyDir
  | nonemptyDir
deriving DecidableEq, Repr

/-- Entries of one directory: name paired with kind, names unique in any
well-formed state. -/
abbrev DirEntries := List (String × EntryKind)

/-- A provider skills directory: mode it was created with and its
entries. -/
structure PDir where
  mode : Nat
  entries : DirEntries
deriving DecidableEq, Repr

/-- Central store directory, `filepath.Join(HOME, ".agents", "skills")`
in the source; the home directory is abstracted as an opaque prefix. -/
def storeDir : String := "HOME/.agents/skills"

/-- Resolved central-store path of a skill, `filepath.Join(skillsDir, name)`. -/
def storePath (n : String) : String := storeDir ++ "/" ++ n

/-- Lookup of a directory entry by name (directory names are unique). -/
def lookupEntry : DirEntries → String → Option EntryKind
  | [], _ => none
  | (m, k) :: es, n => if m = n then some k else lookupEntry es n

/-- Effect of a successful `os.Remove` on the entry list: the named
entry is dropped. -/
def eraseEntry : DirEntries → String → DirEntries
  | [], _ => []
  | (m, k) :: es, n => if m = n then es else (m, k) :: eraseEntry es n

/-- Model of `os.Symlink(relPath, linkPath)` with the error discarded:
fails (state unchanged) if the name exists, otherwise appends the new
link.  The stored target is the resolved central-store path, which is
what the `filepath.Rel`-computed relative path resolves to. -/
def symlinkAdd (es : DirEntries) (n target : String) : DirEntries :=
  if (lookupEntry es n).isSome then es
  else es ++ [(n, EntryKind.symlink target)]

/-- Model of `os.Remove(linkPath)` with the error discarded: removes a
file, symlink or empty directory; fails (state unchanged) on a
non-empty directory or a missing name. -/
def removeEntry (es : DirEntries) (n : String) : DirEntries :=
  match lookupEntry es n with
  | none => es
  | some EntryKind.nonemptyDir => es
  | some _ => eraseEntry es n

/-- One skill row of the management view (`SkillEntry` in
internal/tui/app.go). -/
structure SkillEntry where
  name : String
  group : String
  linked : Bool
  selected : Bool
deriving DecidableEq, Repr

/-- Model of Go `strings.Split(s, sep)` for a single-character
separator, over the character list of the string. -/
def splitOnChar (sep : Char) : List Char → List (List Char)
  | [] => [[]]
  | c :: cs =>
    if c = sep then [] :: splitOnChar sep cs
    else
      match splitOnChar sep cs with
      | [] => [[c]]
      | p :: ps => (c :: p) :: ps

/-- The source's `extractGroup` (internal/tui/app.go): split the name on
"-"; with at least two parts the group is the first part, otherwise the
sentinel "_other". -/
def extractGroup (name : String) : String :=
  match splitOnChar '-' name.data with
  | p :: _ :: _ => String.mk p
  | _ => "_other"

/-- Go's string comparison: lexicographic over the character sequence
(for UTF-8, byte order and code-point order agree). -/
def charListLt : List Char → List Char → Bool
  | _, [] => false
  | [], _ :: _ => true
  | c :: cs, d :: ds => if c < d then true else if d < c then false else charListLt cs ds

/-- Go `a < b` on strings. -/
def strLt (a b : String) : Bool := charListLt a.data b.data

/-- The non-strict order `sort.Strings` establishes: `a` may precede `b`
exactly when `b < a` fails. -/
def strLe (a b : String) : Prop := strLt b a = false

instance : DecidableRel strLe := fun a b =>
  inferInstanceAs (Decidable (strLt b a = false))

/-- The `sort.Slice` comparator of `loadSkillsForProvider` on names:
distinct groups compare by group, equal groups compare by name. -/
def nameLtB (a b : String) : Bool :=
  if extractGroup a = extractGroup b then strLt a b
  else strLt (extractGroup a) (extractGroup b)

/-- Non-strict order on skill names the source's skill sort
establishes. -/
def nameLe (a b : String) : Prop := nameLtB b a = false

instance : DecidableRel nameLe := fun a b =>
  inferInstanceAs (Decidable (nameLtB b a = false))

/-- The `sort.Slice` comparator of `loadSkillsForProvider` on rows. -/
def entryLtB (a b : SkillEntry) : Bool :=
  if a.group = b.group then strLt a.name b.name
  else strLt a.group b.group

/-- Non-strict order on skill rows the source's skill sort
establishes. -/
def entryLe (a b : SkillEntry) : Prop := entryLtB b a = false

instance : DecidableRel entryLe := fun a b =>
  inferInstanceAs (Decidable (entryLtB b a = false))

/-- Error result of `os.ReadDir`: either the directory does not exist,
or it is unreadable for another reason. -/
inductive ReadDirErr where
  | notExist
  | other
deriving DecidableEq, Repr

/-- Names currently present in the provider directory, excluding the
".DS_Store" artifact — the `linkedSkills` set of
`loadSkillsForProvider`.  An unconfigured provider or a failing
directory read contributes no names. -/
def providerNames (configured : Bool) (fs : Option PDir) : List String :=
  if configured then
    match fs with
    | some d => (d.entries.map Prod.fst).filter (fun n => n != ".DS_Store")
    | none => []
  else []

/-- Skill names of the central store listing: directory entries that are
directories and not ".DS_Store" (`loadSkillsForProvider`).  A central
entry is a name paired with its `IsDir` flag. -/
def centralSkillNames (central : List (String × Bool)) : List String :=
  (central.filter (fun e => e.2 && (e.1 != ".DS_Store"))).map Prod.fst

/-- The source's `loadSkillsForProvider`: a failing central-store read
yields the empty list; otherwise each central skill becomes a row whose
`linked` and `selected` flags record presence in the provider
directory, sorted by (group, name). -/
def loadSkillsForProvider (centralRead : Except ReadDirErr (List (String × Bool)))
    (configured : Bool) (fs : Option PDir) : List SkillEntry :=
  match centralRead with
  | Except.error _ => []
  | Except.ok central =>
    let linked := providerNames configured fs
    let skills := (centralSkillNames central).map (fun n =>
      { name := n, group := extractGroup n,
        linked := decide (n ∈ linked), selected := decide (n ∈ linked) })
    List.insertionSort entryLe skills

/-- The desired selection: the user's checkbox toggles, keyed by skill
name (the ephemeral Selection of the spec). -/
def applySelection (sel : String → Bool) (skills : List SkillEntry) : List SkillEntry :=
  skills.map (fun s => { s with selected := sel s.name })

/-- The action `applySkillChanges` performs for one row: create the
link when selected and not linked, remove when deselected and linked,
nothing otherwise. -/
inductive SkillAction where
  | createLink
  | removeLink
  | noop
deriving DecidableEq, Repr

/-- Action the apply loop takes for one skill row. -/
def actionOf (s : SkillEntry) : SkillAction :=
  if s.selected && !s.linked then SkillAction.createLink
  else if !s.selected && s.linked then SkillAction.removeLink
  else SkillAction.noop

/-- The plan implicit in one `applySkillChanges` call: each row paired
with the action the loop takes for it, in list order. -/
def planOf (skills : List SkillEntry) : List (String × SkillAction) :=
  skills.map (fun s => (s.name, actionOf s))

/-- Mode `applySkillChanges` and `Configure` pass to `os.MkdirAll`. -/
def mkdirMode : Nat := 0o755

/-- One iteration of the `applySkillChanges` loop on the entry list. -/
def applyStep (es : DirEntries) (s : SkillEntry) : DirEntries :=
  if s.selected && !s.linked then symlinkAdd es s.name (storePath s.name)
  else if !s.selected && s.linked then removeEntry es s.name
  else es

/-- The provider directory `applySkillChanges` operates on: the existing
directory, or the one `os.MkdirAll` freshly creates with `mkdirMode`. -/
def dirOrNew (fs : Option PDir) : PDir := fs.getD ⟨mkdirMode, []⟩

/-- The source's `applySkillChanges` (internal/tui/app.go): create the
provider directory when the provider is not marked configured, then run
the per-skill loop, discarding every operation error.  The function
returns nothing in Go; the embedding returns the resulting filesystem
state, its only effect. -/
def applySkillChanges (configured : Bool) (fs : Option PDir)
    (skills : List SkillEntry) : Option PDir :=
  let fs := if configured then fs else some (dirOrNew fs)
  match fs with
  | none => none
  | some d => some ⟨d.mode, skills.foldl applyStep d.entries⟩

/-- What actually happens to one planned item, judged from the state the
item executes against — the outcome the spec demands `Apply` report and
the code discards. -/
inductive ItemOutcome where
  | succeeded
  | failed
deriving DecidableEq, Repr

/-- Outcome of one item of the apply loop against entry state `es`:
`os.Symlink` fails on an existing name, `os.Remove` fails on a missing
name or a non-empty directory, a no-op item trivially succeeds. -/
def outcomeOf (es : DirEntries) (s : SkillEntry) : ItemOutcome :=
  if s.selected && !s.linked then
    if (lookupEntry es s.name).isSome then ItemOutcome.failed else ItemOutcome.succeeded
  else if !s.selected && s.linked then
    match lookupEntry es s.name with
    | some EntryKind.nonemptyDir => ItemOutcome.failed
    | none => ItemOutcome.failed
    | some _ => ItemOutcome.succeeded
  else ItemOutcome.succeeded

/-- Value the final provider-directory state assigns to a name after the
apply loop processed the row `s` for that name: the row's action applied
to the name's previous entry, failures leaving it unchanged. -/
def stepLookup (cur : Option EntryKind) (s : SkillEntry) : Option EntryKind :=
  if s.selected && !s.linked then
    if cur.isSome then cur else some (EntryKind.symlink (storePath s.name))
  else if !s.selected && s.linked then
    match cur with
    | some EntryKind.nonemptyDir => some EntryKind.nonemptyDir
    | _ => none
  else cur

/-- The source's `Store.ListInstalled` (package skill): any
`os.ReadDir` error is returned as-is; on success the directory entries
are kept as installed skills. -/
def listInstalled (read : Except ReadDirErr (List (String × Bool))) :
    Except ReadDirErr (List String) :=
  match read with
  | Except.error e => Except.error e
  | Except.ok es => Except.ok ((es.filter (fun e => e.2)).map Prod.fst)

/-- One entry of the lock document (`LockEntry` in package skill); all
fields are strings, absent fields are the empty string. -/
structure LockEntry where
  source : String
  sourceType : String
  sourceUrl : String
  skillPath : String
  skillFolderHash : String
  installedAt : String
  updatedAt : String
deriving DecidableEq, Repr

/-- The lock document (`LockFile` in package skill): a version and a
map from skill name to entry, modelled as an association list with
unique keys. -/
structure LockFile where
  version : Nat
  skills : List (String × LockEntry)
deriving DecidableEq, Repr

/-- Lookup in the lock document's skills map. -/
def lookupLock : List (String × LockEntry) → String → Option LockEntry
  | [], _ => none
  | (m, e) :: rest, n => if m = n then some e else lookupLock rest n

/-- Go map assignment `lock.Skills[name] = entry` on the association
list: replace the entry in place if present, append otherwise. -/
def upsertLock : List (String × LockEntry) → String → LockEntry → List (String × LockEntry)
  | [], n, e => [(n, e)]
  | (m, e') :: rest, n, e =>
    if m = n then (n, e) :: rest else (m, e') :: upsertLock rest n e

/-- The entry `Store.AddToLock` writes: source as given, type "github",
derived URL, both timestamps the current time, remaining fields zero. -/
def mkLockEntry (source now : String) : LockEntry :=
  { source := source, sourceType := "github",
    sourceUrl := "https://github.com/" ++ source ++ ".git",
    skillPath := "", skillFolderHash := "",
    installedAt := now, updatedAt := now }

/-- The source's `Store.AddToLock` after a successful read of the lock
document: assign a fresh entry under the skill name. -/
def addToLock (lock : LockFile) (skillName source now : String) : LockFile :=
  { lock with skills := upsertLock lock.skills skillName (mkLockEntry source now) }

/-- Result of `os.ReadFile` on the lock file followed by
`json.Unmarshal`, abstracted to what the control flow inspects: the
file is missing, unreadable, or read with a parse result. -/
inductive LockRead where
  | notExist
  | readErr
  | content (parsed : Option LockFile)
deriving DecidableEq

/-- The source's `Store.ReadLockFile`: a missing file yields the fresh
document of version 3 with no skills; any other read error or a parse
failure is an error. -/
def readLockFile : LockRead → Except Unit LockFile
  | LockRead.notExist => Except.ok { version := 3, skills := [] }
  | LockRead.readErr => Except.error ()
  | LockRead.content none => Except.error ()
  | LockRead.content (some l) => Except.ok l

/-- Provider record of package provider (part_004): name, skills path,
configured flag, link count. -/
structure ProviderInfo where
  name : String
  skillsPath : String
  configured : Bool
  skillCount : Nat
deriving DecidableEq, Repr

/-- The counting loop of `DetectAll` and `Get`: every entry except
".DS_Store" counts, whatever its kind. -/
def countSkills (entries : DirEntries) : Nat :=
  (entries.filter (fun e => e.1 != ".DS_Store")).length

/-- The probe `DetectAll` and `Get` perform for one provider:
`os.Stat` (error or `IsDir` flag), then on a directory an `os.ReadDir`
whose failure leaves the count at zero. -/
def probeProvider (name path : String) (statRes : Option Bool)
    (readRes : Option DirEntries) : ProviderInfo :=
  match statRes with
  | some true =>
    { name := name, skillsPath := path, configured := true,
      skillCount := match readRes with
        | some es => countSkills es
        | none => 0 }
  | _ => { name := name, skillsPath := path, configured := false, skillCount := 0 }

/-- One line of the management view's flat display list
(`displayItem` in internal/tui/app.go), identified by name. -/
inductive DisplayItem where
  | group (g : String)
  | skill (n : String)
deriving DecidableEq, Repr

/-- Skill names sorted the way `loadSkillsForProvider` sorts its rows:
by (group, name). -/
def sortedNamesOf (names : List String) : List String :=
  List.insertionSort nameLe names

/-- Group names of the display (`buildDisplayList`): the distinct groups
of the sorted rows, sorted ascending by `sort.Strings`. -/
def groupsOf (names : List String) : List String :=
  List.insertionSort strLe (((sortedNamesOf names).map extractGroup).dedup)

/-- Display block of one group: its header followed by its members in
sorted-row order (`buildDisplayList` walks the row indices it collected
in row order). -/
def displayFor (s : List String) (g : String) : List DisplayItem :=
  DisplayItem.group g :: (s.filter (fun n => extractGroup n == g)).map DisplayItem.skill

/-- The source's `buildDisplayList` on the names of the loaded rows: an
empty row list yields nothing, otherwise each group header is followed
by the group's skills. -/
def groupedDisplay (names : List String) : List DisplayItem :=
  if names.isEmpty then []
  else ((groupsOf names).map (displayFor (sortedNamesOf names))).flatten

/-- Round trip of §8 idempotence, composed from the embedded source
functions: derive the rows for the current state, overlay the
selection, apply, re-derive against the resulting state (the configured
flag re-probed from directory existence, as `detectProviders` does),
and read off the new plan. -/
def replanAfterApply (central : List (String × Bool)) (fs : Option PDir)
    (sel : String → Bool) : List (String × SkillAction) :=
  let skills := applySelection sel (loadSkillsForProvider (Except.ok central) fs.isSome fs)
  let fs2 := applySkillChanges fs.isSome fs skills
  planOf (applySelection sel (loadSkillsForProvider (Except.ok central) fs2.isSome fs2))

/-! ## Order lemmas for the embedded Go string comparison -/

theorem charListLt_asymm : ∀ (l m : List Char),
    charListLt l m = true → charListLt m l = false := by
  intro l
  induction l with
  | nil =>
    intro m h
    cases m with
    | nil => simp [charListLt] at h
    | cons d ds => simp [charListLt]
  | cons c cs ih =>
    intro m h
    cases m with
    | nil => simp [charListLt] at h
    | cons d ds =>
      simp only [charListLt] at h ⊢
      by_cases h1 : c < d
      · have h2 : ¬ d < c := lt_asymm h1
        simp [h1, h2]
      · by_cases h2 : d < c
        · simp [h1, h2] at h
        · simp only [h1, h2, if_false] at h
          simp [h1, h2, ih ds h]

theorem charListLt_eq : ∀ (l m : List Char),
    charListLt l m = false → charListLt m l = false → l = m := by
  intro l
  induction l with
  | nil =>
    intro m h1 h2
    cases m with
    | nil => rfl
    | cons d ds => simp [charListLt] at h1
  | cons c cs ih =>
    intro m h1 h2
    cases m with
    | nil => simp [charListLt] at h2
    | cons d ds =>
      simp only [charListLt] at h1 h2
      by_cases hc : c < d
      · simp [hc] at h1
      · by_cases hd : d < c
        · simp [hd] at h2
        · have hcd : c = d := le_antisymm (not_lt.mp hd) (not_lt.mp hc)
          subst hcd
          simp only [hc, hd, if_false] at h1 h2
          exact congrArg (c :: ·) (ih ds h1 h2)

theorem charListLt_trans : ∀ (l m k : List Char),
    charListLt l m = true → charListLt m k = true → charListLt l k = true := by
  intro l
  induction l with
  | nil =>
    intro m k h1 h2
    cases k with
    | nil =>
      cases m with
      | nil => simp [charListLt] at h1
      | cons d ds => simp [charListLt] at h2
    | cons e es => simp [charListLt]
  | cons c cs ih =>
    intro m k h1 h2
    cases m with
    | nil => simp [charListLt] at h1
    | cons d ds =>
      cases k with
      | nil => simp [charListLt] at h2
      | cons e es =>
        simp only [charListLt] at h1 h2 ⊢
        by_cases h3 : c < d
        · by_cases h4 : d < e
          · simp [lt_trans h3 h4]
          · by_cases h5 : e < d
            · simp [h4, h5] at h2
            · have hde : d = e := le_antisymm (not_lt.mp h5) (not_lt.mp h4)
              subst hde
              simp [h3]
        · by_cases h3' : d < c
          · simp [h3, h3'] at h1
          · have hcd : c = d := le_antisymm (not_lt.mp h3') (not_lt.mp h3)
            subst hcd
            simp only [h3, h3', if_false] at h1
            by_cases h4 : c < e
            · simp [h4]
            · by_cases h5 : e < c
              · simp [h4, h5] at h2
              · simp only [h4, h5, if_false] at h2 ⊢
                exact ih ds es h1 h2

theorem strLt_asymm {a b : String} (h : strLt a b = true) : strLt b a = false :=
  charListLt_asymm a.data b.data h

theorem strLt_eq {a b : String} (h1 : strLt a b = false) (h2 : strLt b a = false) :
    a = b := by
  cases a with
  | mk la =>
    cases b with
    | mk lb => exact congrArg String.mk (charListLt_eq la lb h1 h2)

theorem strLt_trans {a b c : String} (h1 : strLt a b = true) (h2 : strLt b c = true) :
    strLt a c = true :=
  charListLt_trans a.data b.data c.data h1 h2

instance : IsTotal String strLe := by
  refine ⟨fun a b => ?_⟩
  unfold strLe
  cases h : strLt b a with
  | false => exact Or.inl rfl
  | true => exact Or.inr (strLt_asymm h)

instance : IsTrans String strLe := by
  refine ⟨fun a b c h1 h2 => ?_⟩
  unfold strLe at h1 h2 ⊢
  cases h : strLt c a with
  | false => rfl
  | true =>
    cases h3 : strLt a b with
    | true => exact absurd h2 (by simp [strLt_trans h h3])
    | false =>
      have hab : a = b := strLt_eq h3 h1
      subst hab
      exact absurd h2 (by simp [h])

instance : IsAntisymm String strLe := ⟨fun _ _ h1 h2 => strLt_eq h2 h1⟩

theorem nameLtB_asymm {a b : String} (h : nameLtB a b = true) : nameLtB b a = false := by
  unfold nameLtB at h ⊢
  by_cases hg : extractGroup a = extractGroup b
  · rw [if_pos hg] at h
    rw [if_pos hg.symm]
    exact strLt_asymm h
  · rw [if_neg hg] at h
    rw [if_neg (fun hx => hg hx.symm)]
    exact strLt_asymm h

theorem nameLtB_eq {a b : String} (h1 : nameLtB a b = false) (h2 : nameLtB b a = false) :
    a = b := by
  unfold nameLtB at h1 h2
  by_cases hg : extractGroup a = extractGroup b
  · rw [if_pos hg] at h1
    rw [if_pos hg.symm] at h2
    exact strLt_eq h1 h2
  · rw [if_neg hg] at h1
    rw [if_neg (fun hx => hg hx.symm)] at h2
    exact absurd (strLt_eq h1 h2) hg

theorem nameLtB_trans {a b c : String} (h1 : nameLtB a b = true) (h2 : nameLtB b c = true) :
    nameLtB a c = true := by
  unfold nameLtB at h1 h2 ⊢
  by_cases hab : extractGroup a = extractGroup b
  · rw [if_pos hab] at h1
    by_cases hbc : extractGroup b = extractGroup c
    · rw [if_pos hbc] at h2
      rw [if_pos (hab.trans hbc)]
      exact strLt_trans h1 h2
    · rw [if_neg hbc] at h2
      rw [if_neg (fun hx => hbc (hab ▸ hx)), hab]
      exact h2
  · rw [if_neg hab] at h1
    by_cases hbc : extractGroup b = extractGroup c
    · rw [if_neg (fun hx : extractGroup a = extractGroup c => hab (hx.trans hbc.symm)), ← hbc]
      exact h1
    · rw [if_neg hbc] at h2
      have hac : extractGroup a ≠ extractGroup c := by
        intro hx
        rw [hx] at h1
        exact absurd h2 (by simp [strLt_asymm h1])
      rw [if_neg hac]
      exact strLt_trans h1 h2

instance : IsTotal String nameLe := by
  refine ⟨fun a b => ?_⟩
  unfold nameLe
  cases h : nameLtB b a with
  | false => exact Or.inl rfl
  | true => exact Or.inr (nameLtB_asymm h)

instance : IsTrans String nameLe := by
  refine ⟨fun a b c h1 h2 => ?_⟩
  unfold nameLe at h1 h2 ⊢
  cases h : nameLtB c a with
  | false => rfl
  | true =>
    cases h3 : nameLtB a b with
    | true => exact absurd h2 (by simp [nameLtB_trans h h3])
    | false =>
      have hab : a = b := nameLtB_eq h3 h1
      subst hab
      exact absurd h2 (by simp [h])

instance : IsAntisymm String nameLe := ⟨fun _ _ h1 h2 => nameLtB_eq h2 h1⟩

/-! ## Directory lookup and apply-loop lemmas -/

theorem lookupEntry_eq_none_iff (es : DirEntries) (n : String) :
    lookupEntry es n = none ↔ n ∉ es.map Prod.fst := by
  induction es with
  | nil => simp [lookupEntry]
  | cons e rest ih =>
    obtain ⟨m, k⟩ := e
    simp only [lookupEntry, List.map_cons, List.mem_cons]
    by_cases h : m = n
    · subst h
      simp
    · rw [if_neg h, ih]
      constructor
      · rintro hx (h1 | h1)
        · exact h h1.symm
        · exact hx h1
      · intro hx h1
        exact hx (Or.inr h1)

theorem lookupEntry_isSome_iff (es : DirEntries) (n : String) :
    (lookupEntry es n).isSome = true ↔ n ∈ es.map Prod.fst := by
  constructor
  · intro h
    by_contra hmem
    rw [← lookupEntry_eq_none_iff] at hmem
    rw [hmem] at h
    simp at h
  · intro h
    cases hx : lookupEntry es n with
    | some k => rfl
    | none => exact absurd h ((lookupEntry_eq_none_iff es n).mp hx)

theorem lookupEntry_of_mem {es : DirEntries} {n : String} {k : EntryKind}
    (hmem : (n, k) ∈ es) (hnd : (es.map Prod.fst).Nodup) :
    lookupEntry es n = some k := by
  induction es with
  | nil => cases hmem
  | cons e rest ih =>
    obtain ⟨m, k'⟩ := e
    rcases List.mem_cons.mp hmem with h | h
    · obtain ⟨h1, h2⟩ := Prod.mk.injEq .. ▸ h
      simp only [lookupEntry]
      rw [if_pos (by exact h1.symm ▸ rfl)]
      exact congrArg some (by injection h with ha hb; exact hb.symm)
    · have hne : m ≠ n := by
        intro hx
        subst hx
        exact (List.nodup_cons.mp hnd).1 (List.mem_map.mpr ⟨(m, k), h, rfl⟩)
      simp only [lookupEntry, if_neg hne]
      exact ih h (List.nodup_cons.mp hnd).2

theorem mem_of_lookupEntry {es : DirEntries} {n : String} {k : EntryKind}
    (h : lookupEntry es n = some k) : (n, k) ∈ es := by
  induction es with
  | nil => simp [lookupEntry] at h
  | cons e rest ih =>
    obtain ⟨m, k'⟩ := e
    by_cases hx : m = n
    · subst hx
      simp only [lookupEntry, if_pos rfl] at h
      injection h with h
      exact h ▸ List.mem_cons_self _ _
    · simp only [lookupEntry, if_neg hx] at h
      exact List.mem_cons_of_mem _ (ih h)

theorem lookupEntry_append_right {es : DirEntries} {n : String}
    (h : lookupEntry es n = none) (tl : DirEntries) :
    lookupEntry (es ++ tl) n = lookupEntry tl n := by
  induction es with
  | nil => rfl
  | cons e rest ih =>
    obtain ⟨m, k⟩ := e
    by_cases hx : m = n
    · simp [lookupEntry, hx] at h
    · simp only [lookupEntry, if_neg hx] at h ⊢
      exact ih h

theorem lookupEntry_append_left {es : DirEntries} {n : String} {k : EntryKind}
    (h : lookupEntry es n = some k) (tl : DirEntries) :
    lookupEntry (es ++ tl) n = some k := by
  induction es with
  | nil => simp [lookupEntry] at h
  | cons e rest ih =>
    obtain ⟨m, k'⟩ := e
    by_cases hx : m = n
    · simp only [lookupEntry, if_pos hx] at h ⊢
      exact h
    · simp only [lookupEntry, if_neg hx] at h ⊢
      exact ih h

theorem lookupEntry_eraseEntry_ne (es : DirEntries) {n m : String} (h : m ≠ n) :
    lookupEntry (eraseEntry es n) m = lookupEntry es m := by
  induction es with
  | nil => rfl
  | cons e rest ih =>
    obtain ⟨p, k⟩ := e
    by_cases hp : p = n
    · simp only [eraseEntry, if_pos hp, lookupEntry]
      rw [if_neg (fun hx : p = m => h (hx.symm.trans hp))]
    · simp only [eraseEntry, if_neg hp, lookupEntry]
      by_cases hm : p = m
      · simp [hm]
      · simp [hm, ih]

theorem eraseEntry_sublist (es : DirEntries) (n : String) :
    (eraseEntry es n).Sublist es := by
  induction es with
  | nil => exact List.Sublist.refl _
  | cons e rest ih =>
    obtain ⟨p, k⟩ := e
    by_cases hp : p = n
    · simp only [eraseEntry, if_pos hp]
      exact List.sublist_cons_self _ _
    · simp only [eraseEntry, if_neg hp]
      exact List.Sublist.cons₂ _ ih

theorem lookupEntry_eraseEntry_self {es : DirEntries} {n : String}
    (hnd : (es.map Prod.fst).Nodup) :
    lookupEntry (eraseEntry es n) n = none := by
  induction es with
  | nil => rfl
  | cons e rest ih =>
    obtain ⟨p, k⟩ := e
    by_cases hp : p = n
    · subst hp
      simp only [eraseEntry, if_pos rfl]
      rw [lookupEntry_eq_none_iff]
      exact (List.nodup_cons.mp hnd).1
    · simp only [eraseEntry, if_neg hp, lookupEntry, if_neg hp]
      exact ih (List.nodup_cons.mp hnd).2

theorem applyStep_lookup_ne (es : DirEntries) (s : SkillEntry) {m : String}
    (h : m ≠ s.name) :
    lookupEntry (applyStep es s) m = lookupEntry es m := by
  unfold applyStep symlinkAdd removeEntry
  by_cases h1 : (s.selected && !s.linked) = true
  · rw [if_pos h1]
    by_cases h2 : (lookupEntry es s.name).isSome = true
    · rw [if_pos h2]
    · rw [if_neg h2]
      cases hl : lookupEntry es m with
      | none =>
        rw [lookupEntry_append_right hl]
        simp only [lookupEntry]
        rw [if_neg (fun hx : s.name = m => h hx.symm)]
      | some k => rw [lookupEntry_append_left hl]
  · rw [if_neg h1]
    by_cases h2 : (!s.selected && s.linked) = true
    · rw [if_pos h2]
      cases hl : lookupEntry es s.name with
      | none => rfl
      | some k =>
        cases k with
        | nonemptyDir => rfl
        | symlink t => exact lookupEntry_eraseEntry_ne es h
        | file => exact lookupEntry_eraseEntry_ne es h
        | emptyDir => exact lookupEntry_eraseEntry_ne es h
    · rw [if_neg h2]

theorem applyStep_lookup_self (es : DirEntries) (s : SkillEntry)
    (hnd : (es.map Prod.fst).Nodup) :
    lookupEntry (applyStep es s) s.name = stepLookup (lookupEntry es s.name) s := by
  unfold applyStep stepLookup symlinkAdd removeEntry
  by_cases h1 : (s.selected && !s.linked) = true
  · rw [if_pos h1, if_pos h1]
    by_cases h2 : (lookupEntry es s.name).isSome = true
    · rw [if_pos h2, if_pos h2]
    · rw [if_neg h2, if_neg h2]
      have hl : lookupEntry es s.name = none := by
        cases hx : lookupEntry es s.name with
        | none => rfl
        | some k => rw [hx] at h2; simp at h2
      rw [lookupEntry_append_right hl]
      simp [lookupEntry]
  · rw [if_neg h1, if_neg h1]
    by_cases h2 : (!s.selected && s.linked) = true
    · rw [if_pos h2, if_pos h2]
      cases hl : lookupEntry es s.name with
      | none => rw [hl]
      | some k =>
        cases k with
        | nonemptyDir => rw [hl]
        | symlink t => exact lookupEntry_eraseEntry_self hnd
        | file => exact lookupEntry_eraseEntry_self hnd
        | emptyDir => exact lookupEntry_eraseEntry_self hnd
    · rw [if_neg h2, if_neg h2]

theorem applyStep_nodup (es : DirEntries) (s : SkillEntry)
    (hnd : (es.map Prod.fst).Nodup) :
    ((applyStep es s).map Prod.fst).Nodup := by
  unfold applyStep symlinkAdd removeEntry
  by_cases h1 : (s.selected && !s.linked) = true
  · rw [if_pos h1]
    by_cases h2 : (lookupEntry es s.name).isSome = true
    · rw [if_pos h2]; exact hnd
    · rw [if_neg h2]
      have hl : s.name ∉ es.map Prod.fst := by
        rw [← lookupEntry_eq_none_iff]
        cases hx : lookupEntry es s.name with
        | none => rfl
        | some k => rw [hx] at h2; simp at h2
      rw [List.map_append]
      simp only [List.map_cons, List.map_nil]
      rw [List.nodup_append]
      refine ⟨hnd, List.nodup_singleton _, ?_⟩
      intro x hx hx2
      rw [List.mem_singleton] at hx2
      exact hl (hx2 ▸ hx)
  · rw [if_neg h1]
    by_cases h2 : (!s.selected && s.linked) = true
    · rw [if_pos h2]
      cases hl : lookupEntry es s.name with
      | none => exact hnd
      | some k =>
        cases k with
        | nonemptyDir => exact hnd
        | symlink t => exact hnd.sublist ((eraseEntry_sublist es s.name).map Prod.fst)
        | file => exact hnd.sublist ((eraseEntry_sublist es s.name).map Prod.fst)
        | emptyDir => exact hnd.sublist ((eraseEntry_sublist es s.name).map Prod.fst)
    · rw [if_neg h2]; exact hnd

theorem foldl_applyStep_lookup_ne (skills : List SkillEntry) (es : DirEntries) {n : String}
    (h : ∀ s ∈ skills, s.name ≠ n) :
    lookupEntry (skills.foldl applyStep es) n = lookupEntry es n := by
  induction skills generalizing es with
  | nil => rfl
  | cons s rest ih =>
    rw [List.foldl_cons, ih _ (fun x hx => h x (List.mem_cons_of_mem _ hx))]
    exact applyStep_lookup_ne es s (fun hx => h s (List.mem_cons_self _ _) hx.symm)

theorem foldl_applyStep_nodup (skills : List SkillEntry) (es : DirEntries)
    (hnd : (es.map Prod.fst).Nodup) :
    (((skills.foldl applyStep es)).map Prod.fst).Nodup := by
  induction skills generalizing es with
  | nil => exact hnd
  | cons s rest ih => exact ih _ (applyStep_nodup es s hnd)

theorem foldl_applyStep_lookup_self (skills : List SkillEntry) (es : DirEntries)
    (s : SkillEntry) (hs : s ∈ skills)
    (hnames : (skills.map SkillEntry.name).Nodup)
    (hnd : (es.map Prod.fst).Nodup) :
    lookupEntry (skills.foldl applyStep es) s.name =
      stepLookup (lookupEntry es s.name) s := by
  induction skills generalizing es with
  | nil => cases hs
  | cons t rest ih =>
    rw [List.foldl_cons]
    rcases List.mem_cons.mp hs with h | h
    · subst h
      have hrest : ∀ x ∈ rest, x.name ≠ s.name := by
        intro x hx hxe
        exact (List.nodup_cons.mp hnames).1 (hxe ▸ List.mem_map.mpr ⟨x, hx, rfl⟩)
      rw [foldl_applyStep_lookup_ne rest _ hrest]
      exact applyStep_lookup_self es s hnd
    · have hne : s.name ≠ t.name := by
        intro hx
        exact (List.nodup_cons.mp hnames).1 (hx ▸ List.mem_map.mpr ⟨s, h, rfl⟩)
      rw [ih _ h (List.nodup_cons.mp hnames).2 (applyStep_nodup es t hnd)]
      rw [applyStep_lookup_ne es t hne]

/-! ## Characterization of the loader and of one apply call -/

theorem applySkillChanges_probe_eq (fs : Option PDir) (skills : List SkillEntry) :
    applySkillChanges fs.isSome fs skills =
      some ⟨(dirOrNew fs).mode, skills.foldl applyStep (dirOrNew fs).entries⟩ := by
  cases fs <;> rfl

theorem loadSkills_ok_eq (central : List (String × Bool)) (cfg : Bool) (fs : Option PDir) :
    loadSkillsForProvider (Except.ok central) cfg fs =
      List.insertionSort entryLe ((centralSkillNames central).map (fun n =>
        { name := n, group := extractGroup n,
          linked := decide (n ∈ providerNames cfg fs),
          selected := decide (n ∈ providerNames cfg fs) })) := rfl

theorem mem_loadSkills_iff (central : List (String × Bool)) (cfg : Bool)
    (fs : Option PDir) (s : SkillEntry) :
    s ∈ loadSkillsForProvider (Except.ok central) cfg fs ↔
      ∃ n ∈ centralSkillNames central,
        s = { name := n, group := extractGroup n,
              linked := decide (n ∈ providerNames cfg fs),
              selected := decide (n ∈ providerNames cfg fs) } := by
  rw [loadSkills_ok_eq]
  rw [(List.perm_insertionSort entryLe _).mem_iff]
  constructor
  · intro h
    obtain ⟨n, hn, he⟩ := List.mem_map.mp h
    exact ⟨n, hn, he.symm⟩
  · rintro ⟨n, hn, rfl⟩
    exact List.mem_map.mpr ⟨n, hn, rfl⟩

theorem mem_applySelection_iff (sel : String → Bool) (skills : List SkillEntry)
    (s : SkillEntry) :
    s ∈ applySelection sel skills ↔
      ∃ t ∈ skills, s = { t with selected := sel t.name } := by
  unfold applySelection
  rw [List.mem_map]
  constructor
  · rintro ⟨t, ht, rfl⟩
    exact ⟨t, ht, rfl⟩
  · rintro ⟨t, ht, rfl⟩
    exact ⟨t, ht, rfl⟩

theorem applySelection_names (sel : String → Bool) (skills : List SkillEntry) :
    (applySelection sel skills).map SkillEntry.name = skills.map SkillEntry.name := by
  unfold applySelection
  rw [List.map_map]
  rfl

theorem loadSkills_names_perm (central : List (String × Bool)) (cfg : Bool)
    (fs : Option PDir) :
    ((loadSkillsForProvider (Except.ok central) cfg fs).map SkillEntry.name).Perm
      (centralSkillNames central) := by
  rw [loadSkills_ok_eq]
  refine ((List.perm_insertionSort entryLe _).map SkillEntry.name).trans ?_
  rw [List.map_map]
  exact List.Perm.of_eq (List.map_id _)

theorem ne_ds_of_mem_central {central : List (String × Bool)} {n : String}
    (h : n ∈ centralSkillNames central) : n ≠ ".DS_Store" := by
  unfold centralSkillNames at h
  obtain ⟨⟨m, b⟩, hmem, rfl⟩ := List.mem_map.mp h
  have hp := List.of_mem_filter hmem
  simp only [Bool.and_eq_true, bne_iff_ne] at hp
  exact hp.2

theorem providerNames_some_mem_iff (d : PDir) (n : String) :
    n ∈ providerNames true (some d) ↔
      (n ≠ ".DS_Store" ∧ (lookupEntry d.entries n).isSome = true) := by
  show n ∈ (d.entries.map Prod.fst).filter (fun m => m != ".DS_Store") ↔ _
  rw [List.mem_filter, lookupEntry_isSome_iff]
  simp only [bne_iff_ne, ne_eq]
  exact and_comm

theorem providerNames_probe_mem_iff (fs : Option PDir) (n : String) :
    n ∈ providerNames fs.isSome fs ↔
      (n ≠ ".DS_Store" ∧ (lookupEntry (dirOrNew fs).entries n).isSome = true) := by
  cases fs with
  | none =>
    show n ∈ providerNames false none ↔ _
    simp [providerNames, dirOrNew, lookupEntry]
  | some d => exact providerNames_some_mem_iff d n

theorem decide_mem_providerNames (fs : Option PDir) (n : String) (hds : n ≠ ".DS_Store") :
    decide (n ∈ providerNames fs.isSome fs) = (lookupEntry (dirOrNew fs).entries n).isSome := by
  cases hx : (lookupEntry (dirOrNew fs).entries n).isSome with
  | true => exact decide_eq_true ((providerNames_probe_mem_iff fs n).mpr ⟨hds, hx⟩)
  | false =>
    refine decide_eq_false ?_
    intro hmem
    rw [((providerNames_probe_mem_iff fs n).mp hmem).2] at hx
    cases hx

theorem decide_mem_providerNames_some (d : PDir) (n : String) (hds : n ≠ ".DS_Store") :
    decide (n ∈ providerNames true (some d)) = (lookupEntry d.entries n).isSome := by
  cases hx : (lookupEntry d.entries n).isSome with
  | true => exact decide_eq_true ((providerNames_some_mem_iff d n).mpr ⟨hds, hx⟩)
  | false =>
    refine decide_eq_false ?_
    intro hmem
    rw [((providerNames_some_mem_iff d n).mp hmem).2] at hx
    cases hx

theorem actionOf_noop_of_eq {s : SkillEntry} (h : s.linked = s.selected) :
    actionOf s = SkillAction.noop := by
  unfold actionOf
  rw [h]
  cases s.selected <;> rfl

theorem stepLookup_isSome (cur : Option EntryKind) (n g : String) (se : Bool)
    (hb : ∀ k, cur = some k → se = false → k ≠ EntryKind.nonemptyDir) :
    (stepLookup cur ⟨n, g, cur.isSome, se⟩).isSome = se := by
  cases hse : se with
  | true =>
    cases cur with
    | none => rfl
    | some k => rfl
  | false =>
    cases cur with
    | none => rfl
    | some k =>
      have hk := hb k rfl hse
      cases k with
      | nonemptyDir => exact absurd rfl hk
      | symlink t => rfl
      | file => rfl
      | emptyDir => rfl

/-! ## Claim theorems -/

/-- C2 (amended): after `applySkillChanges`, re-deriving the rows
against the resulting directory (with the configured flag re-probed
from directory existence) and re-planning the same selection yields
only no-op actions — provided the central names and the directory
names are duplicate-free and no deselected central skill sits on a
non-empty directory entry (a Foreign directory the code tries and
fails to `os.Remove` every time). -/
theorem replanAfterApply_all_noop
    (central : List (String × Bool)) (fs : Option PDir) (sel : String → Bool)
    (hc : (centralSkillNames central).Nodup)
    (he : ((dirOrNew fs).entries.map Prod.fst).Nodup)
    (hrem : ∀ p ∈ (dirOrNew fs).entries,
      sel p.1 = false → p.1 ∈ centralSkillNames central → p.2 ≠ EntryKind.nonemptyDir) :
    ∀ q ∈ replanAfterApply central fs sel, q.2 = SkillAction.noop := by
  intro q hq
  simp only [replanAfterApply] at hq
  rw [applySkillChanges_probe_eq] at hq
  simp only [Option.isSome_some] at hq
  set skills := applySelection sel (loadSkillsForProvider (Except.ok central) fs.isSome fs)
    with hskills
  set es0 := (dirOrNew fs).entries with hes0
  set es1 := skills.foldl applyStep es0 with hes1
  unfold planOf at hq
  obtain ⟨s2, hs2, rfl⟩ := List.mem_map.mp hq
  show actionOf s2 = SkillAction.noop
  obtain ⟨t2, ht2, rfl⟩ := (mem_applySelection_iff _ _ _).mp hs2
  obtain ⟨n, hn, rfl⟩ := (mem_loadSkills_iff _ _ _ _).mp ht2
  have hds : n ≠ ".DS_Store" := ne_ds_of_mem_central hn
  -- the row for n in the first load, and its flags
  have hb0 : decide (n ∈ providerNames fs.isSome fs) = (lookupEntry es0 n).isSome :=
    decide_mem_providerNames fs n hds
  have hnames : (skills.map SkillEntry.name).Nodup := by
    rw [hskills, applySelection_names]
    exact ((loadSkills_names_perm central fs.isSome fs).nodup_iff).mpr hc
  have hrow : (⟨n, extractGroup n, decide (n ∈ providerNames fs.isSome fs), sel n⟩ :
      SkillEntry) ∈ skills := by
    rw [hskills]
    refine (mem_applySelection_iff _ _ _).mpr
      ⟨{ name := n, group := extractGroup n,
         linked := decide (n ∈ providerNames fs.isSome fs),
         selected := decide (n ∈ providerNames fs.isSome fs) },
       (mem_loadSkills_iff _ _ _ _).mpr ⟨n, hn, rfl⟩, rfl⟩
  have hfold : lookupEntry es1 n =
      stepLookup (lookupEntry es0 n)
        ⟨n, extractGroup n, decide (n ∈ providerNames fs.isSome fs), sel n⟩ :=
    foldl_applyStep_lookup_self skills es0 _ hrow hnames he
  rw [hb0] at hfold
  have hbk : ∀ k, lookupEntry es0 n = some k → sel n = false →
      k ≠ EntryKind.nonemptyDir :=
    fun k hk hsel => hrem (n, k) (mem_of_lookupEntry hk) hsel hn
  have hstep : (stepLookup (lookupEntry es0 n)
      ⟨n, extractGroup n, (lookupEntry es0 n).isSome, sel n⟩).isSome = sel n :=
    stepLookup_isSome (lookupEntry es0 n) n (extractGroup n) (sel n) hbk
  have h1 : decide (n ∈ providerNames true (some ⟨(dirOrNew fs).mode, es1⟩)) =
      (lookupEntry es1 n).isSome :=
    decide_mem_providerNames_some _ n hds
  refine actionOf_noop_of_eq ?_
  show decide (n ∈ providerNames true (some ⟨(dirOrNew fs).mode, es1⟩)) = sel n
  rw [h1, hfold, hstep]

/-- C1 (amended): a Foreign entry of a configured provider directory is
never the target of a planned `CreateLink` (any existing entry of a
central skill's name makes the row linked), and `applySkillChanges`
never replaces it with different content — after apply its name maps to
the same entry or to nothing (the entry may have been removed, which is
the corrected part of the claim). -/
theorem foreign_entry_not_created_or_overwritten
    (central : List (String × Bool)) (d : PDir) (sel : String → Bool)
    (n : String) (k : EntryKind)
    (hmem : (n, k) ∈ d.entries)
    (hds : n ≠ ".DS_Store")
    (hforeign : k ≠ EntryKind.symlink (storePath n))
    (hnd : (d.entries.map Prod.fst).Nodup)
    (hcnd : (centralSkillNames central).Nodup) :
    ((n, SkillAction.createLink) ∉
      planOf (applySelection sel (loadSkillsForProvider (Except.ok central) true (some d)))) ∧
    (∀ d2, applySkillChanges true (some d)
        (applySelection sel (loadSkillsForProvider (Except.ok central) true (some d))) =
          some d2 →
      lookupEntry d2.entries n = some k ∨ lookupEntry d2.entries n = none) := by
  have hcur : lookupEntry d.entries n = some k := lookupEntry_of_mem hmem hnd
  have hdec : decide (n ∈ providerNames true (some d)) = true := by
    rw [decide_mem_providerNames_some d n hds, hcur]
    rfl
  constructor
  · intro hplan
    unfold planOf at hplan
    obtain ⟨s, hs, heq⟩ := List.mem_map.mp hplan
    obtain ⟨t, ht, rfl⟩ := (mem_applySelection_iff _ _ _).mp hs
    obtain ⟨m, hm, rfl⟩ := (mem_loadSkills_iff _ _ _ _).mp ht
    have hname : m = n := congrArg Prod.fst heq
    subst hname
    have hact : actionOf (⟨m, extractGroup m,
        decide (m ∈ providerNames true (some d)), sel m⟩ : SkillEntry) =
        SkillAction.createLink := congrArg Prod.snd heq
    rw [hdec] at hact
    unfold actionOf at hact
    cases hsel : sel m <;> rw [hsel] at hact <;> cases hact
  · intro d2 h2
    have happ : applySkillChanges true (some d)
        (applySelection sel (loadSkillsForProvider (Except.ok central) true (some d))) =
        some ⟨d.mode, (applySelection sel
          (loadSkillsForProvider (Except.ok central) true (some d))).foldl
            applyStep d.entries⟩ := rfl
    rw [happ] at h2
    injection h2 with h2
    subst h2
    set skills := applySelection sel (loadSkillsForProvider (Except.ok central) true (some d))
      with hskills
    by_cases hn : n ∈ centralSkillNames central
    · have hnames : (skills.map SkillEntry.name).Nodup := by
        rw [hskills, applySelection_names]
        exact ((loadSkills_names_perm central true (some d)).nodup_iff).mpr hcnd
      have hrow : (⟨n, extractGroup n, decide (n ∈ providerNames true (some d)), sel n⟩ :
          SkillEntry) ∈ skills := by
        rw [hskills]
        refine (mem_applySelection_iff _ _ _).mpr
          ⟨{ name := n, group := extractGroup n,
             linked := decide (n ∈ providerNames true (some d)),
             selected := decide (n ∈ providerNames true (some d)) },
           (mem_loadSkills_iff _ _ _ _).mpr ⟨n, hn, rfl⟩, rfl⟩
      have hfold : lookupEntry (skills.foldl applyStep d.entries) n =
          stepLookup (lookupEntry d.entries n)
            ⟨n, extractGroup n, decide (n ∈ providerNames true (some d)), sel n⟩ :=
        foldl_applyStep_lookup_self skills d.entries _ hrow hnames hnd
      show lookupEntry (skills.foldl applyStep d.entries) n = some k ∨
        lookupEntry (skills.foldl applyStep d.entries) n = none
      rw [hfold, hdec, hcur]
      cases hsel : sel n with
      | true => exact Or.inl rfl
      | false =>
        cases k with
        | nonemptyDir => exact Or.inl rfl
        | symlink t => exact Or.inr rfl
        | file => exact Or.inr rfl
        | emptyDir => exact Or.inr rfl
    · have hnone : ∀ s ∈ skills, s.name ≠ n := by
        intro s hs hsn
        refine hn ?_
        rw [← hsn]
        refine ((loadSkills_names_perm central true (some d)).mem_iff).mp ?_
        rw [← applySelection_names sel, ← hskills]
        exact List.mem_map.mpr ⟨s, hs, rfl⟩
      left
      show lookupEntry (skills.foldl applyStep d.entries) n = some k
      rw [foldl_applyStep_lookup_ne skills d.entries hnone]
      exact hcur

/-- C1 counterexample: central skill "auth-jwt" whose provider entry is
a regular file (Foreign: not a symlink to the store) is planned for
RemoveLink when deselected, and applying deletes the file. -/
theorem foreign_entry_removed_counterexample :
    planOf (applySelection (fun _ => false)
        (loadSkillsForProvider (Except.ok [("auth-jwt", true)]) true
          (some ⟨493, [("auth-jwt", EntryKind.file)]⟩))) =
      [("auth-jwt", SkillAction.removeLink)] ∧
    applySkillChanges true (some ⟨493, [("auth-jwt", EntryKind.file)]⟩)
        (applySelection (fun _ => false)
          (loadSkillsForProvider (Except.ok [("auth-jwt", true)]) true
            (some ⟨493, [("auth-jwt", EntryKind.file)]⟩))) = some ⟨493, []⟩ ∧
    EntryKind.file ≠ EntryKind.symlink (storePath "auth-jwt") := by
  refine ⟨by decide, by decide, by decide⟩

/-- C1 witness: the amended safety theorem applied to a concrete
Foreign file entry under a desired-linked selection. -/
theorem foreign_entry_not_created_or_overwritten_witness :
    (("auth-jwt", EntryKind.file) ∈
        [("auth-jwt", EntryKind.file), ("notes.txt", EntryKind.file)]) ∧
    (("auth-jwt", SkillAction.createLink) ∉
      planOf (applySelection (fun _ => true)
        (loadSkillsForProvider (Except.ok [("auth-jwt", true)]) true
          (some ⟨493, [("auth-jwt", EntryKind.file), ("notes.txt", EntryKind.file)]⟩)))) ∧
    (∀ d2, applySkillChanges true
        (some ⟨493, [("auth-jwt", EntryKind.file), ("notes.txt", EntryKind.file)]⟩)
        (applySelection (fun _ => true)
          (loadSkillsForProvider (Except.ok [("auth-jwt", true)]) true
            (some ⟨493, [("auth-jwt", EntryKind.file), ("notes.txt", EntryKind.file)]⟩))) =
          some d2 →
      lookupEntry d2.entries "auth-jwt" = some EntryKind.file ∨
        lookupEntry d2.entries "auth-jwt" = none) := by
  have h := foreign_entry_not_created_or_overwritten
    [("auth-jwt", true)] ⟨493, [("auth-jwt", EntryKind.file), ("notes.txt", EntryKind.file)]⟩
    (fun _ => true) "auth-jwt" EntryKind.file
    (by decide) (by decide) (by decide) (by decide) (by decide)
  exact ⟨by decide, h.1, h.2⟩

/-- C2 counterexample: a Foreign non-empty directory under a central
skill name, deselected: the removal silently fails, so the re-derived
plan still contains RemoveLink, not NoOp. -/
theorem replan_not_noop_counterexample :
    replanAfterApply [("data", true)] (some ⟨493, [("data", EntryKind.nonemptyDir)]⟩)
        (fun _ => false) =
      [("data", SkillAction.removeLink)] ∧
    SkillAction.removeLink ≠ SkillAction.noop := by
  refine ⟨by decide, by decide⟩

/-- C2 witness: the amended idempotence theorem applied to a concrete
state with one kept link, one link to create and one to remove. -/
theorem replanAfterApply_all_noop_witness :
    (centralSkillNames [("auth-jwt", true), ("vue-testing", true), ("old-notes", true)]).Nodup ∧
    (∀ q ∈ replanAfterApply [("auth-jwt", true), ("vue-testing", true), ("old-notes", true)]
        (some ⟨493, [("auth-jwt", EntryKind.symlink (storePath "auth-jwt")),
                     ("old-notes", EntryKind.symlink (storePath "old-notes"))]⟩)
        (fun n => n == "auth-jwt" || n == "vue-testing"),
      q.2 = SkillAction.noop) :=
  ⟨by decide,
   replanAfterApply_all_noop _ _ _ (by decide) (by decide) (by decide)⟩

/-- C8 (amended): `applySkillChanges` processes every item of the list
regardless of other items' failures — with duplicate-free names, the
resulting directory's entry at each item's name is a function of only
that item and the initial entry under that name. -/
theorem apply_processes_items_independently
    (skills : List SkillEntry) (d : PDir) (s : SkillEntry)
    (hs : s ∈ skills)
    (hnames : (skills.map SkillEntry.name).Nodup)
    (hnd : (d.entries.map Prod.fst).Nodup) :
    ∀ d2, applySkillChanges true (some d) skills = some d2 →
      lookupEntry d2.entries s.name = stepLookup (lookupEntry d.entries s.name) s := by
  intro d2 h2
  have happ : applySkillChanges true (some d) skills =
      some ⟨d.mode, skills.foldl applyStep d.entries⟩ := rfl
  rw [happ] at h2
  injection h2 with h2
  subst h2
  exact foldl_applyStep_lookup_self skills d.entries s hs hnames hnd

/-- C8 counterexample: two apply calls with different plans and
different true per-item outcomes return identical values, so the value
`applySkillChanges` returns reports no per-item outcome (the Go
function returns void and discards both operation errors). -/
theorem apply_reports_no_outcomes :
    applySkillChanges true (some ⟨493, [("data", EntryKind.nonemptyDir)]⟩)
        [⟨"data", "_other", true, false⟩] =
      applySkillChanges true (some ⟨493, [("data", EntryKind.nonemptyDir)]⟩)
        [⟨"data", "_other", true, true⟩] ∧
    planOf [(⟨"data", "_other", true, false⟩ : SkillEntry)] ≠
      planOf [(⟨"data", "_other", true, true⟩ : SkillEntry)] ∧
    List.map (outcomeOf [("data", EntryKind.nonemptyDir)])
        [(⟨"data", "_other", true, false⟩ : SkillEntry)] ≠
      List.map (outcomeOf [("data", EntryKind.nonemptyDir)])
        [(⟨"data", "_other", true, true⟩ : SkillEntry)] := by
  refine ⟨by decide, by decide, by decide⟩

/-- C8 witness: the independence theorem at a state where the first
item's removal fails and the second item still links. -/
theorem apply_processes_items_independently_witness :
    ((⟨"b-two", "b", false, true⟩ : SkillEntry) ∈
      [(⟨"a-one", "a", true, false⟩ : SkillEntry), ⟨"b-two", "b", false, true⟩]) ∧
    (∀ d2, applySkillChanges true (some ⟨493, [("a-one", EntryKind.nonemptyDir)]⟩)
        [(⟨"a-one", "a", true, false⟩ : SkillEntry), ⟨"b-two", "b", false, true⟩] = some d2 →
      lookupEntry d2.entries (⟨"b-two", "b", false, true⟩ : SkillEntry).name =
        stepLookup (lookupEntry [("a-one", EntryKind.nonemptyDir)]
          (⟨"b-two", "b", false, true⟩ : SkillEntry).name) ⟨"b-two", "b", false, true⟩) :=
  ⟨by decide,
   apply_processes_items_independently _ _ _ (by decide) (by decide) (by decide)⟩

/-- C3 counterexample: a non-existence error from reading the central
directory is returned as an error by `listInstalled`, not turned into
an empty result. -/
theorem listInstalled_notExist_is_error :
    listInstalled (Except.error ReadDirErr.notExist) = Except.error ReadDirErr.notExist ∧
    ∀ l, listInstalled (Except.error ReadDirErr.notExist) ≠ Except.ok l := by
  refine ⟨rfl, fun l h => ?_⟩
  exact Except.noConfusion h

/-- C3 (amended): listing the central store fails exactly when the
directory read fails, for any reason, non-existence included; the TUI
loader instead maps every central-read failure to an empty row list
with no error. -/
theorem listing_failure_propagation :
    (∀ r : Except ReadDirErr (List (String × Bool)),
      (∃ e, listInstalled r = Except.error e) ↔ (∃ e, r = Except.error e)) ∧
    (∀ (e : ReadDirErr) (cfg : Bool) (fs : Option PDir),
      loadSkillsForProvider (Except.error e) cfg fs = []) := by
  constructor
  · intro r
    cases r with
    | error e => exact ⟨fun _ => ⟨e, rfl⟩, fun _ => ⟨e, rfl⟩⟩
    | ok es =>
      constructor
      · rintro ⟨e, he⟩
        exact Except.noConfusion he
      · rintro ⟨e, he⟩
        exact Except.noConfusion he
  · intro e cfg fs
    rfl

theorem splitOnChar_of_not_mem {sep : Char} : ∀ {l : List Char}, sep ∉ l →
    splitOnChar sep l = [l] := by
  intro l
  induction l with
  | nil => intro _; rfl
  | cons c cs ih =>
    intro h
    have hc : ¬ c = sep := fun hx => h (hx ▸ List.mem_cons_self _ _)
    simp only [splitOnChar, if_neg hc]
    rw [ih (fun hx => h (List.mem_cons_of_mem _ hx))]

/-- C4 (amended): a name without the separator gets the fixed sentinel
group "_other"; but the sentinel does not sort after every derived
group: it sorts before every group name starting at or beyond the
lowercase letters — the groups of typical lowercase skill names — so
those unclassified skills appear first, not last. -/
theorem extractGroup_sentinel_order
    (name : String) (hn : '-' ∉ name.data)
    (c : Char) (cs : List Char) (hc : 'a' ≤ c) :
    extractGroup name = "_other" ∧ strLt "_other" (String.mk (c :: cs)) = true := by
  constructor
  · unfold extractGroup
    rw [splitOnChar_of_not_mem hn]
  · have h1 : ('_' : Char) < c := lt_of_lt_of_le (by decide) hc
    have hdata : "_other".data = '_' :: ['o', 't', 'h', 'e', 'r'] := rfl
    show charListLt "_other".data (c :: cs) = true
    rw [hdata]
    simp only [charListLt, if_pos h1]

/-- C4 counterexample: the group derived from "auth-jwt" is "auth", the
sentinel sorts before it rather than after, and in the grouped display
the unclassified skill "zzz" appears first. -/
theorem sentinel_sorts_first :
    extractGroup "auth-jwt" = "auth" ∧
    strLt "auth" "_other" = false ∧ strLt "_other" "auth" = true ∧
    groupedDisplay ["auth-jwt", "zzz"] =
      [DisplayItem.group "_other", DisplayItem.skill "zzz",
       DisplayItem.group "auth", DisplayItem.skill "auth-jwt"] := by
  refine ⟨by decide, by decide, by decide, by decide⟩

/-- C4 witness: the amended sentinel theorem at the separator-free name
"zzz" and the lowercase-initial group "auth". -/
theorem extractGroup_sentinel_order_witness :
    ('-' ∉ "zzz".data) ∧ (('a' : Char) ≤ 'a') ∧
    (extractGroup "zzz" = "_other" ∧
      strLt "_other" (String.mk ('a' :: "uth".data)) = true) :=
  ⟨by decide, by decide,
   extractGroup_sentinel_order "zzz" (by decide) 'a' "uth".data (by decide)⟩

/-- C5: the grouped display is identical for any permutation of the
input names, its group names are in ascending order, and within each
group the skill names are in ascending order. -/
theorem groupedDisplay_sorted_and_perm_invariant
    (l1 l2 : List String) (h : l1.Perm l2) :
    groupedDisplay l1 = groupedDisplay l2 ∧
    (groupsOf l1).Sorted strLe ∧
    (∀ g ∈ groupsOf l1,
      ((sortedNamesOf l1).filter (fun n => extractGroup n == g)).Sorted strLe) := by
  have hsort : sortedNamesOf l1 = sortedNamesOf l2 :=
    List.eq_of_perm_of_sorted
      (((List.perm_insertionSort nameLe l1).trans h).trans
        (List.perm_insertionSort nameLe l2).symm)
      (List.sorted_insertionSort nameLe l1)
      (List.sorted_insertionSort nameLe l2)
  refine ⟨?_, List.sorted_insertionSort strLe _, ?_⟩
  · have hempty : l1.isEmpty = l2.isEmpty := by
      have hlen := h.length_eq
      cases l1 <;> cases l2 <;> simp_all
    unfold groupedDisplay groupsOf
    rw [hsort, hempty]
  · intro g hg
    have hp : (sortedNamesOf l1).Pairwise nameLe := List.sorted_insertionSort nameLe l1
    have hf : ((sortedNamesOf l1).filter (fun n => extractGroup n == g)).Pairwise nameLe :=
      hp.filter _
    refine List.Pairwise.imp_of_mem ?_ hf
    intro a b ha hb hab
    have hga : extractGroup a = g := by
      have hx := List.of_mem_filter ha
      exact beq_iff_eq.mp hx
    have hgb : extractGroup b = g := by
      have hx := List.of_mem_filter hb
      exact beq_iff_eq.mp hx
    show strLt b a = false
    unfold nameLe nameLtB at hab
    rw [if_pos (hgb.trans hga.symm)] at hab
    exact hab

/-- C5 witness: a shuffled pair of inputs with the ordering conclusions
at the first one. -/
theorem groupedDisplay_sorted_witness :
    (["auth-jwt", "vue-testing", "zzz"].Perm ["vue-testing", "auth-jwt", "zzz"]) ∧
    (groupedDisplay ["auth-jwt", "vue-testing", "zzz"] =
        groupedDisplay ["vue-testing", "auth-jwt", "zzz"] ∧
      (groupsOf ["auth-jwt", "vue-testing", "zzz"]).Sorted strLe ∧
      (∀ g ∈ groupsOf ["auth-jwt", "vue-testing", "zzz"],
        ((sortedNamesOf ["auth-jwt", "vue-testing", "zzz"]).filter
          (fun n => extractGroup n == g)).Sorted strLe)) :=
  ⟨List.Perm.swap _ _ _,
   groupedDisplay_sorted_and_perm_invariant _ _ (List.Perm.swap _ _ _)⟩

theorem lookupLock_upsert_self (sk : List (String × LockEntry)) (n : String) (e : LockEntry) :
    lookupLock (upsertLock sk n e) n = some e := by
  induction sk with
  | nil => simp [upsertLock, lookupLock]
  | cons p rest ih =>
    obtain ⟨m, e2⟩ := p
    by_cases h : m = n
    · simp [upsertLock, h, lookupLock]
    · simp only [upsertLock, if_neg h, lookupLock]
      exact ih

theorem lookupLock_upsert_ne (sk : List (String × LockEntry)) (n m : String) (e : LockEntry)
    (hm : m ≠ n) :
    lookupLock (upsertLock sk n e) m = lookupLock sk m := by
  induction sk with
  | nil =>
    simp only [upsertLock, lookupLock]
    rw [if_neg (fun hx : n = m => hm hx.symm)]
  | cons p rest ih =>
    obtain ⟨p1, p2⟩ := p
    by_cases h : p1 = n
    · simp only [upsertLock, if_pos h, lookupLock]
      rw [if_neg (fun hx : n = m => hm hx.symm), if_neg (fun hx : p1 = m => hm (h ▸ hx).symm)]
    · simp only [upsertLock, if_neg h, lookupLock]
      by_cases h2 : p1 = m
      · rw [if_pos h2, if_pos h2]
      · rw [if_neg h2, if_neg h2]
        exact ih

/-- C6 (amended): `AddToLock` upserts exactly one entry under the skill
name — source as given, type github, derived URL, and both timestamps
set to the current time — leaving the version and every other entry
unchanged; a pre-existing entry's installedAt is overwritten with the
current time, not preserved. -/
theorem addToLock_upsert (lock : LockFile) (skillName source now : String) :
    (addToLock lock skillName source now).version = lock.version ∧
    lookupLock (addToLock lock skillName source now).skills skillName =
      some (mkLockEntry source now) ∧
    (mkLockEntry source now).installedAt = now ∧
    (mkLockEntry source now).updatedAt = now ∧
    (∀ m, m ≠ skillName →
      lookupLock (addToLock lock skillName source now).skills m =
        lookupLock lock.skills m) :=
  ⟨rfl, lookupLock_upsert_self _ _ _, rfl, rfl,
   fun _ hm => lookupLock_upsert_ne _ _ _ _ hm⟩

/-- C6 counterexample: recording over an existing entry replaces its
installedAt with the new time instead of preserving the old one. -/
theorem addToLock_overwrites_installedAt :
    (addToLock ⟨3, [("react", ⟨"old/repo", "github", "u", "", "",
        "2024-01-01T00:00:00Z", "2024-01-01T00:00:00Z"⟩)]⟩
      "react" "new/repo" "2025-06-01T00:00:00Z").skills =
      [("react", mkLockEntry "new/repo" "2025-06-01T00:00:00Z")] ∧
    (mkLockEntry "new/repo" "2025-06-01T00:00:00Z").installedAt = "2025-06-01T00:00:00Z" ∧
    ("2025-06-01T00:00:00Z" : String) ≠ "2024-01-01T00:00:00Z" := by
  refine ⟨by decide, rfl, by decide⟩

/-- C6 witness: the upsert theorem at a two-entry lock document,
instantiated at the untouched key "b". -/
theorem addToLock_upsert_witness :
    (("b" : String) ≠ "a") ∧
    lookupLock (addToLock ⟨3, [("a", mkLockEntry "o/r" "t0"), ("b", mkLockEntry "x/y" "t1")]⟩
        "a" "o/r" "t2").skills "b" =
      lookupLock (⟨3, [("a", mkLockEntry "o/r" "t0"), ("b", mkLockEntry "x/y" "t1")]⟩ :
        LockFile).skills "b" ∧
    lookupLock (addToLock ⟨3, [("a", mkLockEntry "o/r" "t0"), ("b", mkLockEntry "x/y" "t1")]⟩
        "a" "o/r" "t2").skills "a" = some (mkLockEntry "o/r" "t2") :=
  ⟨by decide,
   (addToLock_upsert ⟨3, [("a", mkLockEntry "o/r" "t0"), ("b", mkLockEntry "x/y" "t1")]⟩
     "a" "o/r" "t2").2.2.2.2 "b" (by decide),
   (addToLock_upsert ⟨3, [("a", mkLockEntry "o/r" "t0"), ("b", mkLockEntry "x/y" "t1")]⟩
     "a" "o/r" "t2").2.1⟩

/-- C7: a missing lock file loads as the fresh version-3 document with
no skills and no error; an error arises exactly for a read failure
other than non-existence or a parse failure. -/
theorem readLockFile_missing_gives_fresh_doc :
    readLockFile LockRead.notExist = Except.ok { version := 3, skills := [] } ∧
    (∀ r, readLockFile r = Except.error () ↔
      (r = LockRead.readErr ∨ r = LockRead.content none)) := by
  refine ⟨rfl, fun r => ?_⟩
  cases r with
  | notExist =>
    constructor
    · intro h
      exact Except.noConfusion h
    · rintro (h | h) <;> exact LockRead.noConfusion h
  | readErr =>
    constructor
    · intro _
      exact Or.inl rfl
    · intro _
      rfl
  | content p =>
    cases p with
    | none =>
      constructor
      · intro _
        exact Or.inr rfl
      · intro _
        rfl
    | some l =>
      constructor
      · intro h
        exact Except.noConfusion h
      · rintro (h | h)
        · exact LockRead.noConfusion h
        · exact Option.noConfusion (LockRead.content.inj h)

/-- C9: applying to a provider not marked configured with an absent
directory first creates the directory with mode 0755 (decimal 493) and
processes every item against it, so the call yields an existing
directory instead of failing. -/
theorem apply_unconfigured_creates_dir (skills : List SkillEntry) :
    applySkillChanges false none skills =
      some ⟨mkdirMode, skills.foldl applyStep ([] : DirEntries)⟩ ∧
    mkdirMode = 493 ∧
    (applySkillChanges false none skills).isSome = true :=
  ⟨rfl, rfl, rfl⟩

/-- C10: for a configured provider whose directory listing succeeds,
the probe's skill count is the number of entries whose name is not
".DS_Store", independent of each entry's kind: listings with the same
names but different kinds count the same. -/
theorem skillCount_counts_all_entries
    (name path : String) (es es2 : DirEntries)
    (h : es.map Prod.fst = es2.map Prod.fst) :
    (probeProvider name path (some true) (some es)).skillCount =
      ((es.map Prod.fst).filter (fun n => n != ".DS_Store")).length ∧
    (probeProvider name path (some true) (some es)).skillCount =
      (probeProvider name path (some true) (some es2)).skillCount ∧
    (probeProvider name path (some true) (some es)).configured = true := by
  have key : ∀ es3 : DirEntries,
      (es3.filter (fun e => e.1 != ".DS_Store")).length =
      ((es3.map Prod.fst).filter (fun n => n != ".DS_Store")).length := by
    intro es3
    induction es3 with
    | nil => rfl
    | cons e rest ih =>
      simp only [List.map_cons, List.filter_cons]
      by_cases hx : (e.1 != ".DS_Store") = true
      · rw [if_pos hx, if_pos hx]
        simp [ih]
      · rw [if_neg hx, if_neg hx]
        exact ih
  refine ⟨?_, ?_, rfl⟩
  · show (es.filter (fun e => e.1 != ".DS_Store")).length =
      ((es.map Prod.fst).filter (fun n => n != ".DS_Store")).length
    exact key es
  · show (es.filter (fun e => e.1 != ".DS_Store")).length =
      (es2.filter (fun e => e.1 != ".DS_Store")).length
    rw [key es, key es2, h]

/-- C10 witness: two listings with the same names — differing entry
kinds and a ".DS_Store" artifact — produce the same count. -/
theorem skillCount_counts_all_entries_witness :
    ([("a", EntryKind.file), (".DS_Store", EntryKind.file), ("b", EntryKind.symlink "x")].map
        Prod.fst =
      [("a", EntryKind.symlink "y"), (".DS_Store", EntryKind.emptyDir),
        ("b", EntryKind.nonemptyDir)].map Prod.fst) ∧
    ((probeProvider "claude" "p" (some true)
        (some [("a", EntryKind.file), (".DS_Store", EntryKind.file),
          ("b", EntryKind.symlink "x")])).skillCount =
      (([("a", EntryKind.file), (".DS_Store", EntryKind.file),
          ("b", EntryKind.symlink "x")].map Prod.fst).filter
        (fun n => n != ".DS_Store")).length ∧
    (probeProvider "claude" "p" (some true)
        (some [("a", EntryKind.file), (".DS_Store", EntryKind.file),
          ("b", EntryKind.symlink "x")])).skillCount =
      (probeProvider "claude" "p" (some true)
        (some [("a", EntryKind.symlink "y"), (".DS_Store", EntryKind.emptyDir),
          ("b", EntryKind.nonemptyDir)])).skillCount ∧
    (probeProvider "claude" "p" (some true)
        (some [("a", EntryKind.file), (".DS_Store", EntryKind.file),
          ("b", EntryKind.symlink "x")])).configured = true) :=
  ⟨by decide, skillCount_counts_all_entries "claude" "p" _ _ (by decide)⟩

end EfxSkills
